import Mathlib

/-!
Verification of the version-resolution module (`alpaca_kernel/_version.py`)
and the packaging script (`setup.py`) of alpaca_kernel_2.

The version module reads the VERSION file, strips surrounding whitespace,
and matches the text against the regular expression
`(?P<major>\d+).(?P<minor>\d+).(?P<patch>\d+)(?P<rest>.*)` with `re.match`
(anchored at the start).  Note that the three separators in the source are
unescaped dots, so each of them is the regex wildcard (any character other
than a newline), not a literal dot.  The match is modelled below by a
backtracking matcher specialised to this pattern, reproducing the engine's
greedy order: each `\d+` tries the maximal digit run first and shortens on
failure, and `.*` takes the longest newline-free run.
-/

/-- Regex class `\d` on the version text: an ASCII decimal digit. -/
def isDig (c : Char) : Bool := c.isDigit

/-- Regex wildcard `.` outside DOTALL mode: any character except a newline.
The separators of the pattern in `_version.py` are unescaped dots, hence
this wildcard, and so is each character matched by the `rest` group. -/
def reAny (c : Char) : Bool := c != '\n'

/-- Value of Python `int` applied to a string of decimal digits. -/
def valDigits (l : List Char) : Nat :=
  l.foldl (fun a c => 10 * a + (c.toNat - 48)) 0

/-- Candidate splits `(s.take i, s.drop i)` for `i = n, n-1, ..., 1`. -/
def splitsAux (s : List Char) : Nat → List (List Char × List Char)
  | 0 => []
  | i + 1 => (s.take (i + 1), s.drop (i + 1)) :: splitsAux s i

/-- The candidates a greedy `\d+` tries at the head of `s`, longest first:
every nonempty prefix of the maximal digit run, paired with the rest. -/
def digitSplits (s : List Char) : List (List Char × List Char) :=
  splitsAux s (s.takeWhile isDig).length

/-- First success of the continuation `k` along the candidate list: the
backtracking order of the regex engine. -/
def firstSome (l : List (List Char × List Char))
    (k : List Char → List Char → Option α) : Option α :=
  match l with
  | [] => none
  | (d, r) :: rest =>
    match k d r with
    | some v => some v
    | none => firstSome rest k

/-- The four captures (major, minor, patch, rest) of a match. -/
abbrev Caps := List Char × List Char × List Char × List Char

/-- Matching from the `(?P<patch>\d+)(?P<rest>.*)` position, the first two
groups having captured `d1` and `d2`: greedy `\d+`, then `.*` takes the
longest newline-free run (nothing follows it in the pattern). -/
def stage3 (d1 d2 s4 : List Char) : Option Caps :=
  firstSome (digitSplits s4) fun d3 s5 => some (d1, d2, d3, s5.takeWhile reAny)

/-- One candidate of the second `\d+` group: its separator (the unescaped
dot, a wildcard) must follow, then the rest of the pattern. -/
def stage2body (d1 d2 s3 : List Char) : Option Caps :=
  match s3 with
  | [] => none
  | c2 :: s4 => if reAny c2 then stage3 d1 d2 s4 else none

/-- Matching from the `(?P<minor>\d+)` position, the first group having
captured `d1`. -/
def stage2 (d1 s2 : List Char) : Option Caps :=
  firstSome (digitSplits s2) (stage2body d1)

/-- One candidate of the first `\d+` group: its separator (the unescaped
dot, a wildcard) must follow, then the rest of the pattern. -/
def stage1body (d1 s1 : List Char) : Option Caps :=
  match s1 with
  | [] => none
  | c1 :: s2 => if reAny c1 then stage2 d1 s2 else none

/-- `re.match` of the pattern
`(?P<major>\d+).(?P<minor>\d+).(?P<patch>\d+)(?P<rest>.*)` against `s`:
the four captures of the match found by the backtracking engine, anchored
at the start of `s`; `none` when the match fails (the module's
`assert match is not None` fires). -/
def reMatch (s : List Char) : Option Caps :=
  firstSome (digitSplits s) stage1body

/-- A Python value stored in the `parts` list of `_version.py`: the integer
components and, possibly, the trailing string. -/
inductive PyVal where
  | int (n : Nat)
  | str (s : String)
deriving DecidableEq, Repr

/-- The `version_info` tuple built by `_version.py` from a version text:
`parts = [int(match[p]) for p in ["major", "minor", "patch"]]`, with
`match["rest"]` appended when it is non-empty; `none` when the regex match
fails and the module's assertion stops the import. -/
def version_info (v : String) : Option (List PyVal) :=
  (reMatch v.data).map fun (d1, d2, d3, r) =>
    [PyVal.int (valDigits d1), PyVal.int (valDigits d2),
      PyVal.int (valDigits d3)] ++ (if r = [] then [] else [PyVal.str ⟨r⟩])

/-- Characters removed by Python `str.strip()` with no argument (the ASCII
whitespace set; the rare non-ASCII whitespace code points are not modelled). -/
def pySpace (c : Char) : Bool :=
  c == ' ' || c == '\t' || c == '\n' || c == '\r' ||
    c == Char.ofNat 11 || c == Char.ofNat 12

/-- Python `text.strip()`: remove leading and trailing whitespace. -/
def pyStrip (s : String) : String :=
  ⟨((s.data.dropWhile pySpace).reverse.dropWhile pySpace).reverse⟩

/-- Decimal rendering of a non-negative integer, digit by digit with the
given fuel; models Python `str` (and the `"{}"` format) on such a number. -/
def decReprAux : Nat → Nat → List Char
  | 0, _ => []
  | fuel + 1, n =>
    if n < 10 then [Nat.digitChar n]
    else decReprAux fuel (n / 10) ++ [Nat.digitChar (n % 10)]

/-- Decimal rendering of a non-negative integer, as Python `str`. -/
def decRepr (n : Nat) : List Char := decReprAux (n + 1) n

/-- The constant `kernel_protocol_version_info = (5, 3)` of `_version.py`. -/
def kernel_protocol_version_info : Nat × Nat := (5, 3)

/-- The constant `kernel_protocol_version = "{}.{}".format(*kernel_protocol_version_info)`. -/
def kernel_protocol_version : String :=
  ⟨decRepr kernel_protocol_version_info.1⟩ ++ "." ++
    ⟨decRepr kernel_protocol_version_info.2⟩

/-- The four module attributes `_version.py` exposes after a successful
import: `__version__`, `version_info` and the two protocol constants. -/
structure ModuleState where
  version : String
  version_info : List PyVal
  kernel_protocol_version_info : Nat × Nat
  kernel_protocol_version : String
deriving DecidableEq, Repr

/-- Importing `_version.py` with the given raw VERSION file contents:
`__version__ = f.read().strip()`, then the regex match (whose failure makes
the assertion stop the import, yielding `none`), then the `version_info`
tuple and the two protocol constants. -/
def loadVersionModule (fileText : String) : Option ModuleState :=
  let v := pyStrip fileText
  match version_info v with
  | none => none
  | some ps =>
    some { version := v, version_info := ps,
           kernel_protocol_version_info := kernel_protocol_version_info,
           kernel_protocol_version := kernel_protocol_version }

/-- Truthiness of `os.environ.get(name)`: `None` (the variable is unset) and
the empty string are falsy, any non-empty string is truthy. -/
def pyTruthy : Option String → Bool
  | none => false
  | some s => s != ""

/-- The `install_requires` list `setup.py` passes to `setup(...)`, as a
function of `os.environ.get("CONDA_BUILD")`: the fixed three-element list,
emptied when the environment variable holds a truthy value. -/
def install_requires (condaBuild : Option String) : List String :=
  if pyTruthy condaBuild then []
  else ["matplotlib", "numpy", "pyserial"]

/-- The `version` string `setup.py` passes to `setup(...)`: the raw VERSION
file contents with surrounding whitespace stripped. -/
def setup_version (raw : String) : String := pyStrip raw

/-- Modelled from the spec: the spec states the contract with the pattern
`^\d+\.\d+\.\d+` whose dots are escaped, i.e. literal.  With literal dots
the match is deterministic (a shorter choice for a `\d+` group would put a
digit where a literal dot is required), so the maximal-run parse decides it:
a digit run, a literal dot, a digit run, a literal dot, a digit run. -/
def specDotShape (s : List Char) : Bool :=
  match s.takeWhile isDig, s.dropWhile isDig with
  | _ :: _, '.' :: s1 =>
    match s1.takeWhile isDig, s1.dropWhile isDig with
    | _ :: _, '.' :: s2 => !(s2.takeWhile isDig).isEmpty
    | _, _ => false
  | _, _ => false

/-- The declarative shape the code's pattern requires of a matching text: a
prefix made of a nonempty digit run, one non-newline character, a nonempty
digit run, one non-newline character, and a nonempty digit run. -/
def Decomp (s : List Char) : Prop :=
  ∃ d1 c1 d2 c2 d3 t,
    s = d1 ++ c1 :: (d2 ++ c2 :: (d3 ++ t)) ∧
    d1 ≠ [] ∧ (∀ c ∈ d1, isDig c = true) ∧
    d2 ≠ [] ∧ (∀ c ∈ d2, isDig c = true) ∧
    d3 ≠ [] ∧ (∀ c ∈ d3, isDig c = true) ∧
    reAny c1 = true ∧ reAny c2 = true

/-! Helper lemmas about the backtracking matcher. -/

theorem firstSome_cons_some {α : Type} {k : List Char → List Char → Option α}
    {d r : List Char} {l : List (List Char × List Char)} {v : α}
    (h : k d r = some v) : firstSome ((d, r) :: l) k = some v := by
  simp [firstSome, h]

theorem firstSome_eq_none_iff {α : Type} (l : List (List Char × List Char))
    (k : List Char → List Char → Option α) :
    firstSome l k = none ↔ ∀ p ∈ l, k p.1 p.2 = none := by
  induction l with
  | nil => simp [firstSome]
  | cons p rest ih =>
    obtain ⟨d, r⟩ := p
    cases h : k d r with
    | none => simpa [firstSome, h] using ih
    | some v => simp [firstSome, h]

theorem firstSome_some_mem {α : Type} {l : List (List Char × List Char)}
    {k : List Char → List Char → Option α} {v : α}
    (h : firstSome l k = some v) : ∃ p ∈ l, k p.1 p.2 = some v := by
  induction l with
  | nil => simp [firstSome] at h
  | cons p rest ih =>
    obtain ⟨d, r⟩ := p
    cases hk : k d r with
    | none =>
      rw [firstSome, hk] at h
      obtain ⟨q, hq, hkq⟩ := ih h
      exact ⟨q, List.mem_cons_of_mem _ hq, hkq⟩
    | some w =>
      simp only [firstSome, hk, Option.some.injEq] at h
      refine ⟨(d, r), List.mem_cons_self _ _, ?_⟩
      rw [hk, h]

theorem takeWhile_eq_self_of {p : Char → Bool} {l : List Char}
    (h : ∀ c ∈ l, p c = true) : l.takeWhile p = l := by
  induction l with
  | nil => rfl
  | cons a l ih =>
    have ha := h a (List.mem_cons_self a l)
    simp [List.takeWhile_cons, ha, ih fun c hc => h c (List.mem_cons_of_mem a hc)]

theorem takeWhile_append_of_head {p : Char → Bool} {d t : List Char}
    (hd : ∀ c ∈ d, p c = true)
    (ht : ∀ ch, t.head? = some ch → p ch = false) :
    (d ++ t).takeWhile p = d := by
  induction d with
  | nil =>
    cases t with
    | nil => rfl
    | cons a t => simp [List.takeWhile_cons, ht a rfl]
  | cons a d ih =>
    have ha := hd a (List.mem_cons_self a d)
    simp [List.takeWhile_cons, ha, ih fun c hc => hd c (List.mem_cons_of_mem a hc)]

theorem length_takeWhile_ge {p : Char → Bool} {d r : List Char}
    (hd : ∀ c ∈ d, p c = true) : d.length ≤ ((d ++ r).takeWhile p).length := by
  induction d with
  | nil => simp
  | cons a d ih =>
    have ha := hd a (List.mem_cons_self a d)
    have h2 := ih fun c hc => hd c (List.mem_cons_of_mem a hc)
    simp only [List.cons_append, List.takeWhile_cons, ha, if_true, List.length_cons]
    omega

theorem dropWhile_head_not {p : Char → Bool} (l : List Char) :
    ∀ ch, (l.dropWhile p).head? = some ch → p ch = false := by
  induction l with
  | nil => intro ch h; simp [List.dropWhile] at h
  | cons a l ih =>
    intro ch h
    cases ha : p a with
    | true => rw [List.dropWhile_cons, if_pos ha] at h; exact ih ch h
    | false =>
      rw [List.dropWhile_cons, if_neg (by simp [ha])] at h
      simp at h
      rw [← h]
      exact ha

theorem take_length_takeWhile (p : Char → Bool) (l : List Char) :
    l.take (l.takeWhile p).length = l.takeWhile p := by
  have h := List.take_left (l.takeWhile p) (l.dropWhile p)
  rwa [List.takeWhile_append_dropWhile] at h

theorem drop_length_takeWhile (p : Char → Bool) (l : List Char) :
    l.drop (l.takeWhile p).length = l.dropWhile p := by
  have h := List.drop_left (l.takeWhile p) (l.dropWhile p)
  rwa [List.takeWhile_append_dropWhile] at h

theorem mem_splitsAux (s : List Char) (q : List Char × List Char) (n : Nat) :
    q ∈ splitsAux s n ↔ ∃ i, 1 ≤ i ∧ i ≤ n ∧ q = (s.take i, s.drop i) := by
  induction n with
  | zero =>
    simp only [splitsAux, List.not_mem_nil, false_iff]
    rintro ⟨i, h1, h2, _⟩
    omega
  | succ n ih =>
    simp only [splitsAux, List.mem_cons, ih]
    constructor
    · rintro (h | ⟨i, h1, h2, h3⟩)
      · exact ⟨n + 1, by omega, by omega, h⟩
      · exact ⟨i, h1, by omega, h3⟩
    · rintro ⟨i, h1, h2, h3⟩
      rcases Nat.lt_or_ge i (n + 1) with hlt | hge
      · exact Or.inr ⟨i, h1, by omega, h3⟩
      · have : i = n + 1 := by omega
        subst this
        exact Or.inl h3

theorem digitSplits_sound {s d r : List Char} (h : (d, r) ∈ digitSplits s) :
    s = d ++ r ∧ d ≠ [] ∧ ∀ c ∈ d, isDig c = true := by
  rw [digitSplits, mem_splitsAux] at h
  obtain ⟨i, h1, h2, h3⟩ := h
  rw [Prod.mk.injEq] at h3
  obtain ⟨rfl, rfl⟩ := h3
  have hlen : (s.takeWhile isDig).length ≤ s.length := by
    have := congrArg List.length (List.takeWhile_append_dropWhile isDig s)
    simp only [List.length_append] at this
    omega
  refine ⟨(List.take_append_drop i s).symm, ?_, ?_⟩
  · have : (s.take i).length = min i s.length := List.length_take i s
    intro hnil
    rw [hnil] at this
    simp at this
    omega
  · intro c hc
    have hsub : s.take i = (s.takeWhile isDig).take i := by
      conv_lhs => rw [← List.takeWhile_append_dropWhile isDig s]
      exact List.take_append_of_le_length (by omega)
    rw [hsub] at hc
    exact List.mem_takeWhile_imp (List.take_subset i _ hc)

theorem mem_digitSplits_intro {d r : List Char} (hne : d ≠ [])
    (hd : ∀ c ∈ d, isDig c = true) : (d, r) ∈ digitSplits (d ++ r) := by
  rw [digitSplits, mem_splitsAux]
  refine ⟨d.length, ?_, length_takeWhile_ge hd, ?_⟩
  · have := List.length_pos.mpr hne
    omega
  · rw [List.take_left, List.drop_left]

theorem digitSplits_cons {d t : List Char} (hne : d ≠ [])
    (hd : ∀ c ∈ d, isDig c = true)
    (ht : ∀ ch, t.head? = some ch → isDig ch = false) :
    ∃ l, digitSplits (d ++ t) = (d, t) :: l := by
  have htw : (d ++ t).takeWhile isDig = d := takeWhile_append_of_head hd ht
  have hlen : d.length ≠ 0 := fun h0 => hne (List.length_eq_zero.mp h0)
  obtain ⟨m, hm⟩ := Nat.exists_eq_succ_of_ne_zero hlen
  have hm2 : m + 1 = d.length := by omega
  refine ⟨splitsAux (d ++ t) m, ?_⟩
  rw [digitSplits, htw, hm, splitsAux, hm2, List.take_left, List.drop_left]

theorem digitSplits_head {s : List Char} {q : List Char × List Char}
    {l : List (List Char × List Char)} (h : digitSplits s = q :: l) :
    q = (s.takeWhile isDig, s.dropWhile isDig) := by
  rw [digitSplits] at h
  cases hn : (s.takeWhile isDig).length with
  | zero => rw [hn, splitsAux] at h; cases h
  | succ m =>
    rw [hn, splitsAux] at h
    injection h with h1 _
    rw [← h1, ← hn, take_length_takeWhile, drop_length_takeWhile]

theorem reMatch_exact {d1 d2 d3 t : List Char} {c1 c2 : Char}
    (h1 : d1 ≠ []) (h1d : ∀ c ∈ d1, isDig c = true)
    (h2 : d2 ≠ []) (h2d : ∀ c ∈ d2, isDig c = true)
    (h3 : d3 ≠ []) (h3d : ∀ c ∈ d3, isDig c = true)
    (hc1 : isDig c1 = false) (hc1a : reAny c1 = true)
    (hc2 : isDig c2 = false) (hc2a : reAny c2 = true)
    (ht : ∀ ch, t.head? = some ch → isDig ch = false) :
    reMatch (d1 ++ c1 :: (d2 ++ c2 :: (d3 ++ t))) =
      some (d1, d2, d3, t.takeWhile reAny) := by
  obtain ⟨l1, e1⟩ := digitSplits_cons h1 h1d
    (t := c1 :: (d2 ++ c2 :: (d3 ++ t)))
    (fun ch h => by rw [List.head?_cons, Option.some.injEq] at h; rw [← h]; exact hc1)
  obtain ⟨l2, e2⟩ := digitSplits_cons h2 h2d (t := c2 :: (d3 ++ t))
    (fun ch h => by rw [List.head?_cons, Option.some.injEq] at h; rw [← h]; exact hc2)
  obtain ⟨l3, e3⟩ := digitSplits_cons h3 h3d ht
  rw [reMatch, e1]
  refine firstSome_cons_some ?_
  rw [stage1body, if_pos hc1a, stage2, e2]
  refine firstSome_cons_some ?_
  rw [stage2body, if_pos hc2a, stage3, e3]
  exact firstSome_cons_some rfl

theorem reMatch_sound {s : List Char} {d1 d2 d3 r : List Char}
    (h : reMatch s = some (d1, d2, d3, r)) :
    ∃ c1 c2 t, s = d1 ++ c1 :: (d2 ++ c2 :: (d3 ++ t)) ∧
      d1 ≠ [] ∧ (∀ c ∈ d1, isDig c = true) ∧
      d2 ≠ [] ∧ (∀ c ∈ d2, isDig c = true) ∧
      d3 ≠ [] ∧ (∀ c ∈ d3, isDig c = true) ∧
      reAny c1 = true ∧ reAny c2 = true ∧
      r = t.takeWhile reAny ∧ (∀ ch, t.head? = some ch → isDig ch = false) := by
  rw [reMatch] at h
  obtain ⟨p1, hmem1, hk1⟩ := firstSome_some_mem h
  obtain ⟨e1, s1⟩ := p1
  obtain ⟨hs1, hne1, hdig1⟩ := digitSplits_sound hmem1
  cases s1 with
  | nil => rw [stage1body] at hk1; cases hk1
  | cons c1 s2 =>
    rw [stage1body] at hk1
    cases hra1 : reAny c1 with
    | false => rw [if_neg (by simp [hra1])] at hk1; cases hk1
    | true =>
      rw [if_pos hra1, stage2] at hk1
      obtain ⟨p2, hmem2, hk2⟩ := firstSome_some_mem hk1
      obtain ⟨e2, s3⟩ := p2
      obtain ⟨hs3, hne2, hdig2⟩ := digitSplits_sound hmem2
      cases s3 with
      | nil => rw [stage2body] at hk2; cases hk2
      | cons c2 s4 =>
        rw [stage2body] at hk2
        cases hra2 : reAny c2 with
        | false => rw [if_neg (by simp [hra2])] at hk2; cases hk2
        | true =>
          rw [if_pos hra2, stage3] at hk2
          cases hds : digitSplits s4 with
          | nil => rw [hds] at hk2; cases hk2
          | cons q l =>
            have hq := digitSplits_head hds
            have hqmem : q ∈ digitSplits s4 := by
              rw [hds]; exact List.mem_cons_self _ _
            obtain ⟨s4eq, hne3, hdig3⟩ := by
              rw [hq] at hqmem; exact digitSplits_sound hqmem
            rw [hds, hq] at hk2
            simp only [firstSome, Option.some.injEq, Prod.mk.injEq] at hk2
            obtain ⟨he1, he2, he3, hr⟩ := hk2
            refine ⟨c1, c2, s4.dropWhile isDig, ?_, ?_, ?_, ?_, ?_, ?_, ?_, ?_, ?_, ?_, ?_⟩
            · rw [hs1, hs3, ← he1, ← he2, ← he3, List.takeWhile_append_dropWhile]
            · rw [← he1]; exact hne1
            · rw [← he1]; exact hdig1
            · rw [← he2]; exact hne2
            · rw [← he2]; exact hdig2
            · rw [← he3]; exact hne3
            · rw [← he3]; exact hdig3
            · exact hra1
            · exact hra2
            · exact hr.symm
            · exact dropWhile_head_not s4

theorem reMatch_complete {s : List Char} (h : Decomp s) :
    (reMatch s).isSome = true := by
  obtain ⟨d1, c1, d2, c2, d3, t, rfl, hne1, hd1, hne2, hd2, hne3, hd3, hc1, hc2⟩ := h
  cases hm : reMatch (d1 ++ c1 :: (d2 ++ c2 :: (d3 ++ t))) with
  | some v => rfl
  | none =>
    exfalso
    rw [reMatch] at hm
    have hk1 := (firstSome_eq_none_iff _ _).mp hm
      (d1, c1 :: (d2 ++ c2 :: (d3 ++ t))) (mem_digitSplits_intro hne1 hd1)
    rw [stage1body, if_pos hc1, stage2] at hk1
    have hk2 := (firstSome_eq_none_iff _ _).mp hk1
      (d2, c2 :: (d3 ++ t)) (mem_digitSplits_intro hne2 hd2)
    rw [stage2body, if_pos hc2, stage3] at hk2
    have hk3 := (firstSome_eq_none_iff _ _).mp hk2
      (d3, t) (mem_digitSplits_intro hne3 hd3)
    cases hk3

/-! Helper lemmas about the decimal rendering and its value. -/

theorem decReprAux_fuel_eq : ∀ f g n, n < f → n < g → decReprAux f n = decReprAux g n := by
  intro f
  induction f with
  | zero => intro g n hf _; exact absurd hf (Nat.not_lt_zero n)
  | succ f ih =>
    intro g n hf hg
    cases g with
    | zero => exact absurd hg (Nat.not_lt_zero n)
    | succ g =>
      rw [decReprAux, decReprAux]
      by_cases h10 : n < 10
      · rw [if_pos h10, if_pos h10]
      · rw [if_neg h10, if_neg h10]
        have hdiv : n / 10 < n := Nat.div_lt_self (by omega) (by omega)
        rw [ih g (n / 10) (by omega) (by omega)]

theorem decRepr_eq (n : Nat) :
    decRepr n = if n < 10 then [Nat.digitChar n]
      else decRepr (n / 10) ++ [Nat.digitChar (n % 10)] := by
  rw [decRepr, decReprAux]
  by_cases h10 : n < 10
  · rw [if_pos h10, if_pos h10]
  · rw [if_neg h10, if_neg h10, decRepr]
    have hdiv : n / 10 < n := Nat.div_lt_self (by omega) (by omega)
    rw [decReprAux_fuel_eq n (n / 10 + 1) (n / 10) (by omega) (by omega)]

theorem digitChar_isDig {k : Nat} (h : k < 10) : isDig (Nat.digitChar k) = true := by
  interval_cases k <;> decide

theorem digitChar_val {k : Nat} (h : k < 10) : (Nat.digitChar k).toNat - 48 = k := by
  interval_cases k <;> decide

theorem decRepr_all_isDig (n : Nat) : ∀ c ∈ decRepr n, isDig c = true := by
  induction n using Nat.strong_induction_on with
  | _ n ih =>
    rw [decRepr_eq]
    by_cases h10 : n < 10
    · rw [if_pos h10]
      intro c hc
      rw [List.mem_singleton] at hc
      rw [hc]
      exact digitChar_isDig h10
    · rw [if_neg h10]
      intro c hc
      rcases List.mem_append.mp hc with hm | hm
      · exact ih (n / 10) (Nat.div_lt_self (by omega) (by omega)) c hm
      · rw [List.mem_singleton] at hm
        rw [hm]
        exact digitChar_isDig (Nat.mod_lt n (by omega))

theorem decRepr_ne_nil (n : Nat) : decRepr n ≠ [] := by
  rw [decRepr_eq]
  by_cases h10 : n < 10
  · simp [h10]
  · simp [h10]

theorem valDigits_append_digit (l : List Char) (c : Char) :
    valDigits (l ++ [c]) = 10 * valDigits l + (c.toNat - 48) := by
  rw [valDigits, valDigits, List.foldl_append]
  rfl

theorem valDigits_decRepr (n : Nat) : valDigits (decRepr n) = n := by
  induction n using Nat.strong_induction_on with
  | _ n ih =>
    rw [decRepr_eq]
    by_cases h10 : n < 10
    · rw [if_pos h10]
      have hv := digitChar_val h10
      simp only [valDigits, List.foldl_cons, List.foldl_nil]
      omega
    · rw [if_neg h10, valDigits_append_digit,
        ih (n / 10) (Nat.div_lt_self (by omega) (by omega)),
        digitChar_val (Nat.mod_lt n (by omega))]
      omega

theorem version_info_of_data {v : String} {d1 d2 d3 t : List Char} {c1 c2 : Char}
    (hv : v.data = d1 ++ c1 :: (d2 ++ c2 :: (d3 ++ t)))
    (h1 : d1 ≠ []) (h1d : ∀ c ∈ d1, isDig c = true)
    (h2 : d2 ≠ []) (h2d : ∀ c ∈ d2, isDig c = true)
    (h3 : d3 ≠ []) (h3d : ∀ c ∈ d3, isDig c = true)
    (hc1 : isDig c1 = false) (hc1a : reAny c1 = true)
    (hc2 : isDig c2 = false) (hc2a : reAny c2 = true)
    (ht : ∀ ch, t.head? = some ch → isDig ch = false) :
    version_info v = some
      ([PyVal.int (valDigits d1), PyVal.int (valDigits d2), PyVal.int (valDigits d3)] ++
        (if t.takeWhile reAny = [] then [] else [PyVal.str ⟨t.takeWhile reAny⟩])) := by
  rw [version_info, hv, reMatch_exact h1 h1d h2 h2d h3 h3d hc1 hc1a hc2 hc2a ht]
  rfl

/-- C2: for every well-formed input of the form "{a}.{b}.{c}" with
non-negative integers a, b, c (in decimal) and an empty suffix, resolution
succeeds and yields exactly the 3-element tuple (a, b, c); in particular
"2.0.0" yields (2, 0, 0). -/
theorem claim_c2_wellformed_triple :
    (∀ a b c : Nat,
      version_info (⟨decRepr a⟩ ++ "." ++ ⟨decRepr b⟩ ++ "." ++ ⟨decRepr c⟩) =
        some [PyVal.int a, PyVal.int b, PyVal.int c]) ∧
    version_info "2.0.0" = some [PyVal.int 2, PyVal.int 0, PyVal.int 0] := by
  refine ⟨fun a b c => ?_, by decide⟩
  have hv : (⟨decRepr a⟩ ++ "." ++ ⟨decRepr b⟩ ++ "." ++ (⟨decRepr c⟩ : String)).data =
      decRepr a ++ '.' :: (decRepr b ++ '.' :: (decRepr c ++ [])) := by
    simp [String.data_append]
  rw [version_info_of_data hv (decRepr_ne_nil a) (decRepr_all_isDig a)
    (decRepr_ne_nil b) (decRepr_all_isDig b) (decRepr_ne_nil c) (decRepr_all_isDig c)
    (by decide) (by decide) (by decide) (by decide) (fun ch h => nomatch h)]
  simp [valDigits_decRepr]

/-- C3 holds only for newline-free suffixes: this counterexample takes the
suffix "\nx" (non-empty, not starting with a digit); the claim as stated
predicts the 4-tuple (1, 2, 3, "\nx"), but the `rest` group of the pattern
is `.*`, which stops at a newline, so the code returns the 3-tuple
(1, 2, 3). -/
theorem claim_c3_counterexample :
    version_info "1.2.3\nx" = some [PyVal.int 1, PyVal.int 2, PyVal.int 3] ∧
      version_info "1.2.3\nx" ≠
        some [PyVal.int 1, PyVal.int 2, PyVal.int 3, PyVal.str "\nx"] :=
  ⟨by decide, by decide⟩

/-- C3 (amended): for every well-formed input "{a}.{b}.{c}{s}" with
non-negative integers a, b, c and a non-empty suffix s that does not start
with a digit and contains no newline, resolution succeeds and yields
exactly the 4-element tuple (a, b, c, s). -/
theorem claim_c3_suffix_quadruple (a b c : Nat) (s : String)
    (hne : s.data ≠ [])
    (hnl : s.data.all (fun ch => ch != '\n') = true)
    (hhd : s.data.head?.all (fun ch => !(isDig ch)) = true) :
    version_info (⟨decRepr a⟩ ++ "." ++ ⟨decRepr b⟩ ++ "." ++ ⟨decRepr c⟩ ++ s) =
      some [PyVal.int a, PyVal.int b, PyVal.int c, PyVal.str s] := by
  have hv : (⟨decRepr a⟩ ++ "." ++ ⟨decRepr b⟩ ++ "." ++ (⟨decRepr c⟩ : String) ++ s).data =
      decRepr a ++ '.' :: (decRepr b ++ '.' :: (decRepr c ++ s.data)) := by
    simp [String.data_append]
  have hhd2 : ∀ ch, s.data.head? = some ch → isDig ch = false := by
    intro ch hch
    rw [hch, Option.all_some] at hhd
    simpa using hhd
  rw [version_info_of_data hv (decRepr_ne_nil a) (decRepr_all_isDig a)
    (decRepr_ne_nil b) (decRepr_all_isDig b) (decRepr_ne_nil c) (decRepr_all_isDig c)
    (by decide) (by decide) (by decide) (by decide) hhd2]
  have htw : s.data.takeWhile reAny = s.data :=
    takeWhile_eq_self_of (List.all_eq_true.mp hnl)
  rw [htw, if_neg hne, valDigits_decRepr, valDigits_decRepr, valDigits_decRepr]
  rfl

/-- C3 witness: the input "1.4.2rc1" of the claim resolves to the 4-tuple
(1, 4, 2, "rc1"). -/
theorem claim_c3_witness :
    version_info "1.4.2rc1" =
      some [PyVal.int 1, PyVal.int 4, PyVal.int 2, PyVal.str "rc1"] := by
  have h := claim_c3_suffix_quadruple 1 4 2 "rc1" (by decide) (by decide) (by decide)
  have hs : (⟨decRepr 1⟩ ++ "." ++ ⟨decRepr 4⟩ ++ "." ++ (⟨decRepr 2⟩ : String) ++ "rc1") =
      "1.4.2rc1" := by decide
  rwa [hs] at h

/-- C10: for every well-formed input whose numeric components are nonempty
digit runs (possibly with leading zeros), resolution succeeds and yields
the integer values of the runs, leading zeros normalized away. -/
theorem claim_c10_leading_zeros (da db dc : List Char)
    (h1 : da ≠ []) (h1d : da.all isDig = true)
    (h2 : db ≠ []) (h2d : db.all isDig = true)
    (h3 : dc ≠ []) (h3d : dc.all isDig = true) :
    version_info ⟨da ++ '.' :: (db ++ '.' :: dc)⟩ =
      some [PyVal.int (valDigits da), PyVal.int (valDigits db),
        PyVal.int (valDigits dc)] := by
  have hv : (⟨da ++ '.' :: (db ++ '.' :: dc)⟩ : String).data =
      da ++ '.' :: (db ++ '.' :: (dc ++ [])) := by simp
  rw [version_info_of_data hv h1 (List.all_eq_true.mp h1d) h2 (List.all_eq_true.mp h2d)
    h3 (List.all_eq_true.mp h3d) (by decide) (by decide) (by decide) (by decide)
    (fun ch h => nomatch h)]
  rfl

/-- C10 witness: the input "007.08.09" of the claim resolves to (7, 8, 9). -/
theorem claim_c10_witness :
    version_info "007.08.09" = some [PyVal.int 7, PyVal.int 8, PyVal.int 9] := by
  have h := claim_c10_leading_zeros ['0', '0', '7'] ['0', '8'] ['0', '9']
    (by decide) (by decide) (by decide) (by decide) (by decide) (by decide)
  exact h

/-- C7: for every input on which resolution succeeds, the resulting
version_info is the 3- or 4-element tuple made of the three parsed integer
captures followed by the trailing-suffix capture, the latter present
exactly when that capture is non-empty. -/
theorem claim_c7_tuple_shape (s : String) (ps : List PyVal)
    (d1 d2 d3 r : List Char)
    (h : version_info s = some ps)
    (hm : reMatch s.data = some (d1, d2, d3, r)) :
    ps = [PyVal.int (valDigits d1), PyVal.int (valDigits d2),
        PyVal.int (valDigits d3)] ++
        (if r = [] then [] else [PyVal.str ⟨r⟩]) ∧
      (ps.length = 3 ∨ ps.length = 4) ∧
      (ps.length = 4 ↔ r ≠ []) := by
  rw [version_info, hm] at h
  simp only [Option.map_some', Option.some.injEq] at h
  subst h
  refine ⟨rfl, ?_, ?_⟩
  · by_cases hrr : r = [] <;> simp [hrr]
  · by_cases hrr : r = [] <;> simp [hrr]

/-- C7 witness: at the concrete input "1.4.2rc1" the tuple is
(1, 4, 2, "rc1"): length 4, first three elements the parsed integers, the
fourth present because the suffix capture "rc1" is non-empty. -/
theorem claim_c7_witness :
    ([PyVal.int 1, PyVal.int 4, PyVal.int 2, PyVal.str "rc1"] =
      [PyVal.int (valDigits ['1']), PyVal.int (valDigits ['4']),
        PyVal.int (valDigits ['2'])] ++
        (if ['r', 'c', '1'] = ([] : List Char) then []
          else [PyVal.str ⟨['r', 'c', '1']⟩])) ∧
      ([PyVal.int 1, PyVal.int 4, PyVal.int 2, PyVal.str "rc1"].length = 3 ∨
        [PyVal.int 1, PyVal.int 4, PyVal.int 2, PyVal.str "rc1"].length = 4) ∧
      ([PyVal.int 1, PyVal.int 4, PyVal.int 2, PyVal.str "rc1"].length = 4 ↔
        ['r', 'c', '1'] ≠ ([] : List Char)) :=
  claim_c7_tuple_shape "1.4.2rc1" [PyVal.int 1, PyVal.int 4, PyVal.int 2, PyVal.str "rc1"]
    ['1'] ['4'] ['2'] ['r', 'c', '1'] (by decide) (by decide)

/-- C8: whenever resolution succeeds with a 4-element tuple, the fourth
(suffix) element never begins with a digit, because the greedy patch group
absorbs the maximal run of digits. -/
theorem claim_c8_suffix_not_digit (s : String) (a b c : Nat) (r : String)
    (h : version_info s =
      some [PyVal.int a, PyVal.int b, PyVal.int c, PyVal.str r]) :
    r.data.head?.all (fun ch => !(isDig ch)) = true := by
  rw [version_info] at h
  cases hm : reMatch s.data with
  | none => rw [hm] at h; cases h
  | some caps =>
    obtain ⟨d1, d2, d3, rr⟩ := caps
    rw [hm] at h
    simp only [Option.map_some', Option.some.injEq] at h
    by_cases hrr : rr = []
    · rw [if_pos hrr] at h
      simp at h
    · rw [if_neg hrr] at h
      simp only [List.cons_append, List.nil_append, List.cons.injEq,
        PyVal.str.injEq] at h
      obtain ⟨_, _, _, hstr, _⟩ := h
      have hrd : r.data = rr := (congrArg String.data hstr).symm
      obtain ⟨c1, c2, t, _, _, _, _, _, _, _, _, _, hrt, hth⟩ := reMatch_sound hm
      rw [hrd, hrt]
      cases t with
      | nil => exact absurd (by simpa using hrt) hrr
      | cons ch t2 =>
        cases hra : reAny ch with
        | false =>
          rw [List.takeWhile_cons, if_neg (by simp [hra])] at hrt
          exact absurd hrt hrr
        | true =>
          rw [List.takeWhile_cons, if_pos hra]
          have := hth ch rfl
          simp [this]

/-- C8 witness: at the concrete input "1.2.34x" the suffix capture is "x"
(patch 34, never patch 3 with suffix "4x"), and it does not begin with a
digit. -/
theorem claim_c8_witness :
    (("x" : String).data.head?.all (fun ch => !(isDig ch))) = true :=
  claim_c8_suffix_not_digit "1.2.34x" 1 2 34 "x" (by decide)

/-- C1 fails as stated: the separators of the code's pattern are unescaped
dots, i.e. wildcards, so "1a2b3", which does not match the spec's
literal-dot pattern `^\d+\.\d+\.\d+`, is nevertheless resolved to
(1, 2, 3) instead of failing. -/
theorem claim_c1_counterexample :
    specDotShape "1a2b3".data = false ∧
      version_info "1a2b3" = some [PyVal.int 1, PyVal.int 2, PyVal.int 3] :=
  ⟨by decide, by decide⟩

/-- C1 (amended): resolution yields a value exactly when the input text
begins with a nonempty digit run, one non-newline character, a nonempty
digit run, one non-newline character, and a nonempty digit run (the code's
pattern `^\d+.\d+.\d+` with unescaped dots); any other input fails with no
value returned, and in particular "v1.2.3" fails. -/
theorem claim_c1_failure_characterization :
    version_info "v1.2.3" = none ∧
      ∀ s : String, ((version_info s).isSome = true ↔ Decomp s.data) := by
  refine ⟨by decide, fun s => ?_⟩
  constructor
  · intro h
    rw [version_info] at h
    cases hm : reMatch s.data with
    | none => rw [hm] at h; cases h
    | some caps =>
      obtain ⟨d1, d2, d3, r⟩ := caps
      obtain ⟨c1, c2, t, heq, hne1, hd1, hne2, hd2, hne3, hd3, hc1, hc2, _, _⟩ :=
        reMatch_sound hm
      exact ⟨d1, c1, d2, c2, d3, t, heq, hne1, hd1, hne2, hd2, hne3, hd3, hc1, hc2⟩
  · intro h
    have hs := reMatch_complete h
    rw [version_info]
    cases hm : reMatch s.data with
    | none => rw [hm] at hs; cases hs
    | some caps => simp [hm]

/-- C4: for every possible contents of the VERSION file that lets the
module load, the protocol version constants equal (5, 3) and "5.3": they
are fixed and independent of the resolved package version. -/
theorem claim_c4_protocol_constants (t : String) (st : ModuleState)
    (h : loadVersionModule t = some st) :
    st.kernel_protocol_version_info = (5, 3) ∧
      st.kernel_protocol_version = "5.3" := by
  simp only [loadVersionModule] at h
  cases hv : version_info (pyStrip t) with
  | none => rw [hv] at h; cases h
  | some ps =>
    rw [hv] at h
    simp only [Option.some.injEq] at h
    rw [← h]
    refine ⟨rfl, ?_⟩
    show kernel_protocol_version = "5.3"
    decide

/-- C4 witness: loading the module from file contents "1.0.0" yields the
protocol constants (5, 3) and "5.3". -/
theorem claim_c4_witness :
    (⟨"1.0.0", [PyVal.int 1, PyVal.int 0, PyVal.int 0], (5, 3), "5.3"⟩
        : ModuleState).kernel_protocol_version_info = (5, 3) ∧
      (⟨"1.0.0", [PyVal.int 1, PyVal.int 0, PyVal.int 0], (5, 3), "5.3"⟩
        : ModuleState).kernel_protocol_version = "5.3" :=
  claim_c4_protocol_constants "1.0.0" _ (by decide)

/-- C5: when CONDA_BUILD is set to a truthy (non-empty) value the install
dependency list passed to the build tool is empty; when it is unset the
list equals the fixed three-item list matplotlib, numpy, pyserial. -/
theorem claim_c5_conda_build_deps :
    install_requires none = ["matplotlib", "numpy", "pyserial"] ∧
      ∀ s : String, s ≠ "" → install_requires (some s) = [] := by
  refine ⟨rfl, fun s hs => ?_⟩
  simp [install_requires, pyTruthy, hs]

/-- C5 witness: with CONDA_BUILD set to "1" the dependency list is empty. -/
theorem claim_c5_witness : install_requires (some "1") = [] :=
  claim_c5_conda_build_deps.2 "1" (by decide)

/-- C9: when CONDA_BUILD is set but equal to the empty string the
dependency list is not emptied and remains the fixed three-item list; only
a non-empty value of CONDA_BUILD suppresses the dependencies. -/
theorem claim_c9_empty_conda_build :
    install_requires (some "") = ["matplotlib", "numpy", "pyserial"] ∧
      ∀ s : String, install_requires (some s) = [] → s ≠ "" := by
  refine ⟨rfl, fun s h hs => ?_⟩
  subst hs
  simp [install_requires, pyTruthy] at h

/-- C9 witness: a value on which the list is emptied is non-empty. -/
theorem claim_c9_witness : ("x" : String) ≠ "" :=
  claim_c9_empty_conda_build.2 "x" (by decide)

/-- C6: the derived version string, both the module's attribute and the
version the packaging script passes to the build tool, equals the raw
VERSION file contents with surrounding whitespace stripped, for every file
contents. -/
theorem claim_c6_version_is_stripped :
    (∀ raw : String, setup_version raw = pyStrip raw) ∧
      ∀ raw st, loadVersionModule raw = some st → st.version = pyStrip raw := by
  refine ⟨fun raw => rfl, fun raw st h => ?_⟩
  simp only [loadVersionModule] at h
  cases hv : version_info (pyStrip raw) with
  | none => rw [hv] at h; cases h
  | some ps =>
    rw [hv] at h
    simp only [Option.some.injEq] at h
    rw [← h]

/-- C6 witness: file contents " 1.0.0" (with a leading blank) load to the
version "1.0.0", the stripped text. -/
theorem claim_c6_witness :
    (⟨"1.0.0", [PyVal.int 1, PyVal.int 0, PyVal.int 0], (5, 3), "5.3"⟩
      : ModuleState).version = pyStrip " 1.0.0" :=
  claim_c6_version_is_stripped.2 " 1.0.0" _ (by decide)

